import Mathlib

/-
Verification development for the fre reconciliation engine
(src/reconcile.ts, src/commit.ts, src/schedule.ts).

Modelling conventions for the JavaScript source:
- A vnode key is modelled by JKey: knull stands for a missing key (null or
  undefined), kstr for a string key, knum for a numeric key.  JavaScript
  truthiness of a key is truthyKey; the string a key is coerced to when used
  as an object-property name is keyStr (null and undefined are collapsed to
  one spelling, which is only observable for the literal string keys
  that collide with it, a situation the diff claims never exercise).
- A child fiber, as far as diff is concerned, is its (type, key) pair; the
  TypeScript type field is a host tag or a component reference, modelled as
  an identifying string.
- The TAG bit constants live in src/type.ts, which is not part of the
  sources; each action object built by diff carries exactly one of
  TAG.UPDATE / TAG.INSERT / TAG.MOVE, so they are modelled as the enum Op
  (modelled from the spec action set {none, INSERT, MOVE, UPDATE}).
- The aCh array is mutated by diff (matched slots are overwritten with
  null); it is modelled as a List (Option Fiber) threaded through the
  middle-resolution loop, where a slot holding none is a nulled slot.
  Reading past the end of the array yields undefined in JavaScript; an
  out-of-range List.get? is none, and the two are kept distinct by reading
  through get? : Option (Option Fiber).
- removeElement is invoked by diff as a side effect; the model returns the
  list of fibers it was invoked on, in call order, in DiffResult.removed.
- The while loops are modelled with an explicit iteration budget (fuel);
  every iteration of the middle-resolution loop advances aHead or bHead and
  aHead advances only while in range, so aCh.length + bCh.length + 1
  iterations always suffice and the budget is never exhausted on the
  arguments diff passes.
-/

namespace Fre

/-- A JavaScript key value as found on a vnode: missing (null / undefined),
a string, or a number. -/
inductive JKey where
  | knull : JKey
  | kstr : String → JKey
  | knum : Int → JKey
deriving DecidableEq

/-- JavaScript truthiness of a key, as tested by the map-building step
`if (aCh[i].key)`: null, undefined, the empty string and 0 are falsy. -/
def truthyKey : JKey → Bool
  | .knull => false
  | .kstr s => decide (s ≠ "")
  | .knum n => decide (n ≠ 0)

/-- The object-property name a key is coerced to by `aMap[key]`. -/
def keyStr : JKey → String
  | .knull => "null"
  | .kstr s => s
  | .knum n => toString n

/-- A child fiber as the diff algorithm observes it: its type and key. -/
structure Fiber where
  type : String
  key : JKey
deriving DecidableEq

/-- Default fiber used with List.getD; every read diff performs is in range
(or is deliberately modelled as undefined through get?). -/
def dfib : Fiber := ⟨"", JKey.knull⟩

/-- The tag carried by one diff action (TAG.UPDATE / TAG.INSERT / TAG.MOVE). -/
inductive Op where
  | UPDATE : Op
  | INSERT : Op
  | MOVE : Op
deriving DecidableEq

/-- One edit action produced by diff.  UPDATE actions carry no cur/ref in
the source ({op: TAG.UPDATE}); INSERT and MOVE carry cur and an anchor ref,
where ref none models an undefined anchor (append as last child). -/
structure Action where
  op : Op
  cur : Option Fiber := none
  ref : Option Fiber := none
deriving DecidableEq

/-- The UPDATE action object ({ op: TAG.UPDATE }). -/
def updAct : Action := ⟨Op.UPDATE, none, none⟩

/-- same(a, b) from diff: a.type === b.type && a.key === b.key. -/
def same (a b : Fiber) : Bool :=
  decide (a.type = b.type ∧ a.key = b.key)

/-- Result of a diff run: the action list it returns and the fibers it
passed to removeElement, in order. -/
structure DiffResult where
  actions : List Action
  removed : List Fiber
deriving DecidableEq

/-- Step one of diff: the tail-match loop.  The numeric arguments are
aTail + 1 and bTail + 1 (so the JS loop guard aHead <= aTail, with aHead
still 0, is aT > 0); matched UPDATE actions are buffered in temp. -/
def tailPhase (aCh bCh : List Fiber) : Nat → Nat → List Action → Nat × Nat × List Action
  | aT+1, bT+1, temp =>
    if same (aCh.getD aT dfib) (bCh.getD bT dfib) then
      tailPhase aCh bCh aT bT (temp ++ [updAct])
    else (aT+1, bT+1, temp)
  | 0, bT, temp => (0, bT, temp)
  | aT, 0, temp => (aT, 0, temp)

/-- Step two of diff: the head-match loop.  aT and bT are aTail + 1 and
bTail + 1 as left by the tail phase; the loop advances aH and bH while the
heads match, appending UPDATE actions in final order.  The fuel argument
bounds the iterations; each iteration increases aH, so any fuel of at
least aT - aH computes the loop exactly. -/
def headPhase (aCh bCh : List Fiber) (aT bT : Nat) :
    Nat → Nat → Nat → List Action → Nat × Nat × List Action
  | 0, aH, bH, acts => (aH, bH, acts)
  | fuel+1, aH, bH, acts =>
    if aH < aT && bH < bT then
      if same (aCh.getD aH dfib) (bCh.getD bH dfib) then
        headPhase aCh bCh aT bT fuel (aH+1) (bH+1) (acts ++ [updAct])
      else (aH, bH, acts)
    else (aH, bH, acts)

/-- Step three of diff: key indexing of the unmatched middle range
[lo, hi).  Only truthy keys are recorded (`if (aCh[i].key)`); a later
duplicate property name overwrites an earlier one, which the cons + first
match lookup of an association list reproduces. -/
def buildMap (ch : List Fiber) (lo hi : Nat) : List (String × Nat) :=
  (List.range' lo (hi - lo)).foldl
    (fun m i =>
      if truthyKey (ch.getD i dfib).key then (keyStr (ch.getD i dfib).key, i) :: m
      else m)
    []

/-- Step four of diff: the middle-resolution loop.  a is the old child
array with nulled slots (none); aT, bT are aTail + 1 and bTail + 1, fixed
for the whole loop.  The guard and the case order mirror the source:
(1) the old slot was nulled, advance aHead; (2) the new range is
exhausted, remove the old head; (3) the old range is exhausted, INSERT
before the old head (which may be a tail-matched node, or undefined
meaning append); (4) heads are the same, UPDATE; (5) map lookups decide
remove / INSERT / MOVE.  The two (acts, removed) early returns in the
out-of-range branch are unreachable when aT ≤ a.length, where the source
would dereference undefined. -/
def midPhase (bCh : List Fiber) (aT bT : Nat) (aMap bMap : List (String × Nat)) :
    Nat → List (Option Fiber) → Nat → Nat → List Action → List Fiber →
    List Action × List Fiber
  | 0, _, _, _, acts, removed => (acts, removed)
  | fuel+1, a, aH, bH, acts, removed =>
    if aH < aT || bH < bT then
      match a[aH]? with
      | some none =>
        midPhase bCh aT bT aMap bMap fuel a (aH+1) bH acts removed
      | none =>
        if bT ≤ bH then (acts, removed)
        else if aT ≤ aH then
          midPhase bCh aT bT aMap bMap fuel a aH (bH+1)
            (acts ++ [⟨Op.INSERT, some (bCh.getD bH dfib), none⟩]) removed
        else (acts, removed)
      | some (some aElm) =>
        if bT ≤ bH then
          midPhase bCh aT bT aMap bMap fuel a (aH+1) bH acts (removed ++ [aElm])
        else if aT ≤ aH then
          midPhase bCh aT bT aMap bMap fuel a aH (bH+1)
            (acts ++ [⟨Op.INSERT, some (bCh.getD bH dfib), some aElm⟩]) removed
        else if same aElm (bCh.getD bH dfib) then
          midPhase bCh aT bT aMap bMap fuel a (aH+1) (bH+1) (acts ++ [updAct]) removed
        else
          match bMap.lookup (keyStr aElm.key), aMap.lookup (keyStr (bCh.getD bH dfib).key) with
          | none, _ =>
            midPhase bCh aT bT aMap bMap fuel a (aH+1) bH acts (removed ++ [aElm])
          | some _, none =>
            midPhase bCh aT bT aMap bMap fuel a aH (bH+1)
              (acts ++ [⟨Op.INSERT, some (bCh.getD bH dfib), some aElm⟩]) removed
          | some _, some foundA =>
            midPhase bCh aT bT aMap bMap fuel (a.set foundA none) aH (bH+1)
              (acts ++ [⟨Op.MOVE, a.getD foundA none, some aElm⟩]) removed
    else (acts, removed)

/-- The tail phase as diff runs it. -/
def tailOut (aCh bCh : List Fiber) : Nat × Nat × List Action :=
  tailPhase aCh bCh aCh.length bCh.length []

/-- The head phase as diff runs it, starting from the tails left by the
tail phase.  Fuel (tailOut …).1 + 1 strictly exceeds the iteration count. -/
def headOut (aCh bCh : List Fiber) : Nat × Nat × List Action :=
  headPhase aCh bCh (tailOut aCh bCh).1 (tailOut aCh bCh).2.1
    ((tailOut aCh bCh).1 + 1) 0 0 []

/-- The old-side key map as diff builds it. -/
def aMapOut (aCh bCh : List Fiber) : List (String × Nat) :=
  buildMap aCh (headOut aCh bCh).1 (tailOut aCh bCh).1

/-- The new-side key map as diff builds it. -/
def bMapOut (aCh bCh : List Fiber) : List (String × Nat) :=
  buildMap bCh (headOut aCh bCh).2.1 (tailOut aCh bCh).2.1

/-- The middle-resolution loop as diff runs it, but started with empty
action and removal accumulators (diff itself threads the head-phase
actions through; see diff and the accumulator lemma midPhase_acc). -/
def midOut (aCh bCh : List Fiber) : List Action × List Fiber :=
  midPhase bCh (tailOut aCh bCh).1 (tailOut aCh bCh).2.1
    (aMapOut aCh bCh) (bMapOut aCh bCh)
    (aCh.length + bCh.length + 1) (aCh.map some)
    (headOut aCh bCh).1 (headOut aCh bCh).2.1 [] []

/-- diff(aCh, bCh): the four phases in source order, threading the single
actions accumulator through head and middle phases, then appending the
buffered tail actions in reverse. -/
def diff (aCh bCh : List Fiber) : DiffResult :=
  let m := midPhase bCh (tailOut aCh bCh).1 (tailOut aCh bCh).2.1
    (aMapOut aCh bCh) (bMapOut aCh bCh)
    (aCh.length + bCh.length + 1) (aCh.map some)
    (headOut aCh bCh).1 (headOut aCh bCh).2.1 (headOut aCh bCh).2.2 []
  ⟨m.1 ++ (tailOut aCh bCh).2.2.reverse, m.2⟩

/-
Scheduler model (src/schedule.ts together with update from
src/reconcile.ts).  The observable scheduler state is: the dirty flag of
the one fiber under consideration, the length of the task queue (schedule
pushes one { callback } work item per call), the transitions queue of
deferred callbacks (callbacks are identified by numbers), and a counter of
how many times a dispatch was triggered (each call of the translate
thunk produced by task() schedules exactly one run of
`transitions.splice(0, 1).forEach(c => c())`; only its latency depends on
the channel, so the trigger count is the faithful observable).
-/

/-- State observed by update / schedule / startTransition / dispatch. -/
structure EngineState where
  dirty : Bool
  queue : Nat
  transitions : List Nat
  dispatches : Nat
deriving DecidableEq

/-- startTransition(cb): `transitions.push(cb) && translate()`.  push
returns the new length, so the guard is the new length being truthy
(nonzero), which always holds. -/
def startTransition (s : EngineState) (cb : Nat) : EngineState :=
  let ts := s.transitions ++ [cb]
  if ts.length != 0 then
    { s with transitions := ts, dispatches := s.dispatches + 1 }
  else { s with transitions := ts }

/-- Identifier standing for the flush callback pushed by schedule. -/
def flushCb : Nat := 0

/-- schedule(callback): push one work item onto the task queue, then
startTransition(flush). -/
def schedule (s : EngineState) : EngineState :=
  startTransition { s with queue := s.queue + 1 } flushCb

/-- update(fiber) from reconcile.ts: if the fiber is not dirty, mark it
dirty and schedule a reconcile work item; otherwise do nothing. -/
def update (s : EngineState) : EngineState :=
  if s.dirty then s else schedule { s with dirty := true }

/-- One run of the dispatch callback cb inside task():
`transitions.splice(0, 1).forEach(c => c())` — remove exactly the oldest
queued callback and run it.  Returns the new state and the callbacks run. -/
def dispatch (s : EngineState) : EngineState × List Nat :=
  match s.transitions with
  | [] => (s, [])
  | c :: rest => ({ s with transitions := rest }, [c])

/-
Memoized-component model (isMemo, shouldUpdate and the component branch of
capture, src/reconcile.ts).  Props are an association list of property
name to a numeric value identity (=== on two property values is equality
of these identities; a value can only be missing by its key being absent,
matching how capture sees component props objects).  A component function
is identified by fid (=== on function objects), and carries the memo flag
and optional custom shouldUpdate comparator set by the memo() helper.
-/

/-- A props object: property names with value identities. -/
abbrev Props := List (String × Nat)

/-- Membership test `i in b` on a props object. -/
def propIn (k : String) (p : Props) : Bool :=
  (List.any p (fun q => q.1 == k))

/-- Property read `p[k]`: none models undefined. -/
def propGet (p : Props) (k : String) : Option Nat :=
  List.lookup k p

/-- The default shallow comparator shouldUpdate(a, b): true when some key
of a is missing from b, or some key of b has a different value in a. -/
def shouldUpdate (a b : Props) : Bool :=
  (List.any a (fun q => !(propIn q.1 b))) ||
  (List.any b (fun q => propGet a q.1 != some q.2))

/-- A component function object: identity, memo flag, and the optional
custom comparator installed by memo(fn, compare). -/
structure FCm where
  fid : Nat
  memo : Bool
  scu : Option (Props → Props → Bool)

/-- The previous version of a component fiber as isMemo reads it: the
identity of its type and its props (none models a missing props object). -/
structure AltFiber where
  tfid : Nat
  props : Option Props

/-- A component fiber as the capture step sees it. -/
structure CompFiber where
  ftype : FCm
  props : Props
  alternate : Option AltFiber
  memo : Bool

/-- isMemo(fiber): the type is flagged memo, the type is identical to the
alternate's type, the alternate has props, and the effective comparator
(custom shouldUpdate if installed, else the default shallow compare)
reports no change. -/
def isMemo (f : CompFiber) : Bool :=
  match f.alternate with
  | some alt =>
    if f.ftype.memo && (f.ftype.fid == alt.tfid) && alt.props.isSome then
      !((f.ftype.scu.getD shouldUpdate) f.props (alt.props.getD []))
    else false
  | none => false

/-- The component branch of capture(fiber): when isMemo holds, mark the
fiber memo and skip to the sibling without invoking the render function;
otherwise clear the memo flag and render (updateHook invokes
fiber.type(fiber.props)).  Returns (render function invoked?, fiber with
its memo flag updated). -/
def captureComp (f : CompFiber) : Bool × CompFiber :=
  if isMemo f then (false, { f with memo := true })
  else (true, { f with memo := false })

/-
Commit-traversal model (commit and commitSibling, src/commit.ts).  A
finished fiber is a tree node carrying: an identifier, the memo flag, and
whether a pending action is attached; child/sibling links are a list of
children.  The model records the order in which commit applies pending
actions: commit(f) first commits the child chain, then applies f's own
action, then continues with the sibling chain, and commitSibling skips a
node flagged memo entirely.
-/

/-- A finished fiber as the commit traversal sees it. -/
inductive CTree where
  | mk (id : Nat) (memo : Bool) (hasAction : Bool) (kids : List CTree)

/-- Identifier of a commit-tree node. -/
def CTree.id : CTree → Nat
  | .mk i _ _ _ => i

/-- memo flag of a commit-tree node. -/
def CTree.memo : CTree → Bool
  | .mk _ m _ _ => m

mutual
/-- commit(fiber): actions applied in a subtree, children first, then the
node's own pending action. -/
def commitActs : CTree → List Nat
  | .mk i _ a kids => commitList kids ++ (if a then [i] else [])

/-- commitSibling over a sibling chain: a memo node is skipped entirely,
any other node is committed. -/
def commitList : List CTree → List Nat
  | [] => []
  | t :: rest => (if t.memo then [] else commitActs t) ++ commitList rest
end

/-
Removal model (removeElement, kidsRefer and refer, src/commit.ts).  A
fiber carries: an identifier, isComp, whether its hooks have registered
cleanup callbacks, whether a ref is bound, and its kids.  The trace
records, in call order: the fibers whose host node was detached
(removeChild), the component fibers whose registered cleanups ran, and
the fibers whose ref was cleared to null (refer(ref, null) with a ref
bound).
-/

/-- A fiber as the removal path sees it. -/
inductive RFiber where
  | mk (id : Nat) (isComp : Bool) (hasCleanup : Bool) (hasRef : Bool)
      (kids : List RFiber)

/-- Identifier of a removal-tree fiber. -/
def RFiber.id : RFiber → Nat
  | .mk i _ _ _ _ => i

/-- isComp of a removal-tree fiber. -/
def RFiber.isComp : RFiber → Bool
  | .mk _ c _ _ _ => c

/-- Whether the fiber's hooks hold registered cleanup callbacks. -/
def RFiber.hasCleanup : RFiber → Bool
  | .mk _ _ cl _ _ => cl

/-- Whether a ref is bound on the fiber. -/
def RFiber.hasRef : RFiber → Bool
  | .mk _ _ _ r _ => r

/-- kids of a removal-tree fiber. -/
def RFiber.kids : RFiber → List RFiber
  | .mk _ _ _ _ ks => ks

/-- The observable effects of a removeElement call, in call order. -/
structure RemovalTrace where
  removed : List Nat
  cleanups : List Nat
  refsCleared : List Nat
deriving DecidableEq

instance : Append RemovalTrace :=
  ⟨fun x y => ⟨x.removed ++ y.removed, x.cleanups ++ y.cleanups,
    x.refsCleared ++ y.refsCleared⟩⟩

@[simp] theorem RemovalTrace.append_def (x y : RemovalTrace) :
    x ++ y = ⟨x.removed ++ y.removed, x.cleanups ++ y.cleanups,
      x.refsCleared ++ y.refsCleared⟩ := rfl

mutual
/-- kidsRefer(kids): recurse into each kid's kids, then clear the kid's
own ref. -/
def kidsRefer : List RFiber → List Nat
  | [] => []
  | k :: ks => kidsReferOne k ++ kidsRefer ks

/-- One kid inside kidsRefer: `kid.kids && kidsRefer(kid.kids);
refer(kid.ref, null)`. -/
def kidsReferOne : RFiber → List Nat
  | .mk i _ _ r kids => kidsRefer kids ++ (if r then [i] else [])
end

mutual
/-- removeElement(fiber, flag): a component fiber runs its registered
cleanup callbacks; a host fiber is detached via removeChild when flag is
true (after which flag becomes false), then kidsRefer clears the refs
below it and its own ref is cleared; finally recurse into the kids with
the current flag. -/
def removeElement : RFiber → Bool → RemovalTrace
  | .mk i c cl r kids, flag =>
    if c then
      (⟨[], if cl then [i] else [], []⟩ : RemovalTrace) ++ removeKids kids flag
    else
      (⟨if flag then [i] else [], [],
        kidsRefer kids ++ (if r then [i] else [])⟩ : RemovalTrace) ++
        removeKids kids false

/-- `fiber?.kids?.forEach(v => removeElement(v, flag))`. -/
def removeKids : List RFiber → Bool → RemovalTrace
  | [], _ => ⟨[], [], []⟩
  | k :: ks, flag => removeElement k flag ++ removeKids ks flag
end

mutual
/-- All fibers of a removal subtree, the root first. -/
def allNodes : RFiber → List RFiber
  | .mk i c cl r kids => .mk i c cl r kids :: allNodesList kids

/-- All fibers of a forest. -/
def allNodesList : List RFiber → List RFiber
  | [] => []
  | k :: ks => allNodes k ++ allNodesList ks
end

/-
Host-adapter structural edit used by commit for INSERT and MOVE:
`parent.insertBefore(cur.node, ref?.node)`.  A missing anchor (ref
undefined, modelled none) appends as last child; otherwise the node is
placed immediately before the anchor.  Host children are identified by
numbers.
-/

/-- Insertion before the first occurrence of the anchor r (an anchor that
is not a child is a DOM error; the model appends, and diff never produces
such an anchor). -/
def insertBeforeAux : List Nat → Nat → Nat → List Nat
  | [], c, _ => [c]
  | k :: ks, c, r => if k = r then c :: k :: ks else k :: insertBeforeAux ks c r

/-- DOM insertBefore on a parent's child list: place c before the anchor,
or append when the anchor is absent. -/
def insertBefore (kids : List Nat) (c : Nat) : Option Nat → List Nat
  | none => kids ++ [c]
  | some r => insertBeforeAux kids c r

/-
Helper lemmas.
-/

/-- same is reflexive: a fiber always matches itself. -/
theorem same_self (f : Fiber) : same f f = true := by
  simp [same]

/-- The tail-match loop on a list diffed against itself consumes the whole
list, buffering one UPDATE per element. -/
theorem tailPhase_self (a : List Fiber) (k : Nat) :
    ∀ temp, tailPhase a a k k temp = (0, 0, temp ++ List.replicate k updAct) := by
  induction k with
  | zero => intro temp; simp [tailPhase]
  | succ n ih =>
    intro temp
    simp only [tailPhase, same_self, if_true, ih (temp ++ [updAct])]
    simp [List.replicate_succ]

/-- Concrete fibers for the key-stability scenario of C1 (same type,
distinct keys). -/
def fA : Fiber := ⟨"t", JKey.kstr "k1"⟩

/-- Concrete fiber B for C1. -/
def fB : Fiber := ⟨"t", JKey.kstr "k2"⟩

/-- Concrete fiber C for C1. -/
def fC : Fiber := ⟨"t", JKey.kstr "k3"⟩

/-
Claim theorems.
-/

/-- C1: for old child list [A(k1), B(k2), C(k3)] and new child list
[C(k3), A(k1), B(k2)] (same types, distinct keys), diff invokes
removeElement on nothing, and the action list is exactly one MOVE whose
cur is C and whose anchor ref is A, followed by UPDATE actions for A and
B (the i-th action is stamped on the i-th new child by
reconcileChidren). -/
theorem C1_key_stability :
    diff [fA, fB, fC] [fC, fA, fB] =
      ⟨[⟨Op.MOVE, some fC, some fA⟩, updAct, updAct], []⟩ := by
  decide

/-- C2: diffing a child list against an identical child list (same types,
keys and order, hence the same (type, key) list L) produces one UPDATE
action per child in input order, no INSERT, no MOVE, and no removal. -/
theorem C2_noop_diff (L : List Fiber) :
    diff L L = ⟨List.replicate L.length updAct, []⟩ := by
  have ht : tailOut L L = (0, 0, List.replicate L.length updAct) := by
    rw [tailOut, tailPhase_self L L.length []]
    simp
  have hh : headOut L L = (0, 0, []) := by
    rw [headOut, ht]
    simp [headPhase]
  have ham : aMapOut L L = [] := by
    rw [aMapOut, hh, ht]; rfl
  have hbm : bMapOut L L = [] := by
    rw [bMapOut, hh, ht]; rfl
  rw [diff, ht, hh, ham, hbm]
  simp [midPhase, List.reverse_replicate]

/-- Concrete unkeyed fibers for the pure-insert scenario of C4. -/
def gA : Fiber := ⟨"a", JKey.knull⟩

/-- Concrete fiber B for C4. -/
def gB : Fiber := ⟨"b", JKey.knull⟩

/-- C4: for old child list [A] and new child list [A, B] with A unchanged,
diff produces exactly one UPDATE action (for A) and one INSERT action for
B whose anchor ref is absent; and commit's insertBefore with an absent
anchor appends the inserted host node at the end of the parent's child
list. -/
theorem C4_pure_insert :
    diff [gA] [gA, gB] = ⟨[updAct, ⟨Op.INSERT, some gB, none⟩], []⟩ ∧
    ∀ (hostKids : List Nat) (bNode : Nat),
      insertBefore hostKids bNode none = hostKids ++ [bNode] :=
  ⟨by decide, fun _ _ => rfl⟩

/-- C7: update is idempotent.  On a state whose fiber is already dirty it
changes nothing (no work item, no deferred callback); on a non-dirty
fiber it marks the fiber dirty and enqueues exactly one work item (and
one flush callback); and a second call never enqueues a second work
item. -/
theorem C7_update_idempotent :
    (∀ s : EngineState, update (update s) = update s) ∧
    (∀ (q : Nat) (ts : List Nat) (d : Nat),
      update ⟨true, q, ts, d⟩ = ⟨true, q, ts, d⟩) ∧
    (∀ (q : Nat) (ts : List Nat) (d : Nat),
      update ⟨false, q, ts, d⟩ = ⟨true, q + 1, ts ++ [flushCb], d + 1⟩) := by
  refine ⟨fun s => ?_, fun q ts d => rfl, fun q ts d => ?_⟩
  · cases s with
    | mk dirty q ts d =>
      cases dirty
      · simp [update, schedule, startTransition]
      · simp [update]
  · simp [update, schedule, startTransition]

/-- C8 counterexample: pushing two callbacks in the same tick triggers two
dispatches, not one — startTransition is `transitions.push(cb) &&
translate()` and push always returns a truthy new length, so every push
triggers the translate channel, and same-tick pushes do not collapse into
a single scheduled dispatch. -/
theorem C8_counterexample :
    (startTransition (startTransition ⟨false, 0, [], 0⟩ 7) 8).dispatches = 2 ∧
    (startTransition (startTransition ⟨false, 0, [], 0⟩ 7) 8).dispatches ≠ 1 := by
  decide

/-- C8 amended: every push of a deferred callback triggers a dispatch (the
push-returns-new-length guard is always truthy, so there is no
first-push-per-tick collapsing), and each dispatch invocation runs
exactly the oldest queued callback and removes only it from the queue. -/
theorem C8_transitions :
    (∀ (s : EngineState) (cb : Nat),
      startTransition s cb =
        { s with transitions := s.transitions ++ [cb],
                 dispatches := s.dispatches + 1 }) ∧
    (∀ (dirty : Bool) (q d : Nat) (c : Nat) (rest : List Nat),
      dispatch ⟨dirty, q, c :: rest, d⟩ = (⟨dirty, q, rest, d⟩, [c])) := by
  refine ⟨fun s cb => ?_, fun dirty q d c rest => rfl⟩
  simp [startTransition]

/-- C10: a component fiber whose alternate is absent, or whose alternate
has no props, is never isMemo — so the memo fast path is not taken on a
first render and capture invokes the render function, whatever the memo
flag and shouldUpdate comparator of its type are. -/
theorem C10_first_render_always_renders (f : CompFiber)
    (h : f.alternate = none ∨ ∃ alt, f.alternate = some alt ∧ alt.props = none) :
    isMemo f = false ∧ (captureComp f).1 = true ∧ (captureComp f).2.memo = false := by
  have hm : isMemo f = false := by
    rcases h with h | ⟨alt, ha, hp⟩
    · simp [isMemo, h]
    · simp [isMemo, ha, hp]
  exact ⟨hm, by simp [captureComp, hm], by simp [captureComp, hm]⟩

/-- Concrete memoized component fiber on its first render (no alternate)
used to witness C10. -/
def w10 : CompFiber := ⟨⟨3, true, none⟩, [("x", 1)], none, false⟩

/-- Witness for C10 at a concrete first-render fiber. -/
theorem C10_witness :
    isMemo w10 = false ∧ (captureComp w10).1 = true ∧ (captureComp w10).2.memo = false :=
  C10_first_render_always_renders w10 (Or.inl rfl)

mutual
/-- removeElement with flag false never detaches a host node. -/
theorem removeElement_false_removed : ∀ (f : RFiber),
    (removeElement f false).removed = []
  | .mk i c cl r kids => by
    cases c <;> simp [removeElement, removeKids_false_removed kids]

/-- removeKids with flag false never detaches a host node. -/
theorem removeKids_false_removed : ∀ (ks : List RFiber),
    (removeKids ks false).removed = []
  | [] => by simp [removeKids]
  | k :: ks => by
    simp [removeKids, removeElement_false_removed k, removeKids_false_removed ks]
end

mutual
/-- Every component node with registered cleanups anywhere in the subtree
has its cleanups run by removeElement, whatever the flag. -/
theorem removeElement_cleanups : ∀ (f : RFiber) (flag : Bool) (n : RFiber),
    n ∈ allNodes f → n.isComp = true → n.hasCleanup = true →
    n.id ∈ (removeElement f flag).cleanups
  | .mk i c cl r kids, flag, n, hmem, hcomp, hcl => by
    rw [allNodes] at hmem
    rcases List.mem_cons.mp hmem with heq | h2
    · subst heq
      simp only [RFiber.isComp] at hcomp
      simp only [RFiber.hasCleanup] at hcl
      subst hcomp; subst hcl
      simp [removeElement, RFiber.id]
    · cases c with
      | false =>
        have h3 := removeKids_cleanups kids false n h2 hcomp hcl
        simpa [removeElement] using h3
      | true =>
        have h3 := removeKids_cleanups kids flag n h2 hcomp hcl
        simp [removeElement, List.mem_append]
        exact Or.inr h3

/-- Forest version of removeElement_cleanups. -/
theorem removeKids_cleanups : ∀ (ks : List RFiber) (flag : Bool) (n : RFiber),
    n ∈ allNodesList ks → n.isComp = true → n.hasCleanup = true →
    n.id ∈ (removeKids ks flag).cleanups
  | [], _, n, hmem, _, _ => by rw [allNodesList] at hmem; simp at hmem
  | k :: ks, flag, n, hmem, hcomp, hcl => by
    rw [allNodesList] at hmem
    rcases List.mem_append.mp hmem with h1 | h2
    · have h3 := removeElement_cleanups k flag n h1 hcomp hcl
      simp [removeKids, List.mem_append]
      exact Or.inl h3
    · have h3 := removeKids_cleanups ks flag n h2 hcomp hcl
      simp [removeKids, List.mem_append]
      exact Or.inr h3
end

mutual
/-- kidsRefer clears the ref of every node of the forest it is given. -/
theorem kidsRefer_cover : ∀ (ks : List RFiber) (n : RFiber),
    n ∈ allNodesList ks → n.hasRef = true → n.id ∈ kidsRefer ks
  | [], n, hmem, _ => by rw [allNodesList] at hmem; simp at hmem
  | k :: ks, n, hmem, href => by
    rw [allNodesList] at hmem
    rcases List.mem_append.mp hmem with h1 | h2
    · have h3 := kidsReferOne_cover k n h1 href
      simp [kidsRefer, List.mem_append]
      exact Or.inl h3
    · have h3 := kidsRefer_cover ks n h2 href
      simp [kidsRefer, List.mem_append]
      exact Or.inr h3

/-- One kidsRefer step clears the ref of every node of the kid's subtree,
the kid itself included. -/
theorem kidsReferOne_cover : ∀ (k : RFiber) (n : RFiber),
    n ∈ allNodes k → n.hasRef = true → n.id ∈ kidsReferOne k
  | .mk i c cl r kids, n, hmem, href => by
    rw [allNodes] at hmem
    rcases List.mem_cons.mp hmem with heq | h2
    · subst heq
      simp only [RFiber.hasRef] at href
      subst href
      simp [kidsReferOne, RFiber.id]
    · have h3 := kidsRefer_cover kids n h2 href
      simp [kidsReferOne, List.mem_append]
      exact Or.inl h3
end

/-- Component-rooted fiber with a bound ref used to refute C5 as stated. -/
def cex5 : RFiber := .mk 0 true false true [.mk 1 false false false []]

/-- C5 counterexample: on the component-rooted subtree cex5 (root id 0,
ref bound, one host kid id 1), removeElement clears no reference binding
at all (the component branch never calls refer or kidsRefer, so the
root's ref survives), and the host handle detached is the kid's, not one
detached on first entry. -/
theorem C5_counterexample :
    cex5.hasRef = true ∧ removeElement cex5 true = ⟨[1], [], []⟩ := by
  decide

/-- C5 amended: for every host (non-component) fiber subtree passed to
removeElement with flag true, the root's host handle is the one and only
handle detached, the registered cleanup callbacks are invoked for every
component node in the subtree, every reference binding in the subtree is
cleared to null, and the operation recurses into all children (the
subtree coverage of the last two conjuncts witnesses the recursion).
For a component-rooted call the root's own ref is not cleared and its
placeholder handle is not detached (see C5_counterexample). -/
theorem C5_host_removal (f : RFiber) (hhost : f.isComp = false) :
    (removeElement f true).removed = [f.id] ∧
    (∀ n ∈ allNodes f, n.isComp = true → n.hasCleanup = true →
      n.id ∈ (removeElement f true).cleanups) ∧
    (∀ n ∈ allNodes f, n.hasRef = true →
      n.id ∈ (removeElement f true).refsCleared) := by
  obtain ⟨i, c, cl, r, kids⟩ := f
  simp only [RFiber.isComp] at hhost
  subst hhost
  refine ⟨?_, fun n hm hc hcl => removeElement_cleanups _ true n hm hc hcl, ?_⟩
  · simp [removeElement, RFiber.id, removeKids_false_removed]
  · intro n hm href
    rw [allNodes] at hm
    rcases List.mem_cons.mp hm with heq | h2
    · subst heq
      simp only [RFiber.hasRef] at href
      subst href
      simp [removeElement, RFiber.id]
    · have h3 := kidsRefer_cover kids n h2 href
      simp [removeElement, List.mem_append]
      exact Or.inl h3

/-- Concrete host-rooted subtree for the C5 witness: host root id 0 with a
ref, component kid id 1 with registered cleanups. -/
def w5 : RFiber := .mk 0 false false true [.mk 1 true true false []]

/-- The component kid of w5. -/
def w5k : RFiber := .mk 1 true true false []

/-- Witness for the amended C5 at the concrete host-rooted subtree w5. -/
theorem C5_witness :
    (removeElement w5 true).removed = [w5.id] ∧
    w5k.id ∈ (removeElement w5 true).cleanups ∧
    w5.id ∈ (removeElement w5 true).refsCleared := by
  have h := C5_host_removal w5 rfl
  refine ⟨h.1, h.2.1 w5k ?_ rfl rfl, h.2.2 w5 ?_ rfl⟩
  · simp [w5, w5k, allNodes, allNodesList]
  · simp [w5, allNodes, allNodesList]

/-- A memo node is skipped entirely by the commitSibling traversal: its
subtree contributes no actions. -/
theorem commitList_skip (t : CTree) (ht : t.memo = true) (pre post : List CTree) :
    commitList (pre ++ t :: post) = commitList pre ++ commitList post := by
  induction pre with
  | nil => simp [commitList, ht]
  | cons p ps ih => simp [commitList, ih, List.append_assoc]

/-- A comparator that always reports a change, as memo(fn, compare) can
install. -/
def cmpTrue : Props → Props → Bool := fun _ _ => true

/-- Memoized component fiber with a custom always-changed comparator and
new props shallow-equal to its previous props. -/
def cex6 : CompFiber :=
  ⟨⟨1, true, some cmpTrue⟩, [("x", 5)], some ⟨1, some [("x", 5)]⟩, false⟩

/-- C6 counterexample: cex6 is a memoized component fiber whose type
equals its previous version's type, whose previous version has props, and
whose new props are shallow-equal to its previous props — yet capture
invokes its render function, because isMemo consults the custom
shouldUpdate comparator installed by memo(fn, compare) instead of the
default shallow comparison. -/
theorem C6_counterexample :
    cex6.ftype.memo = true ∧
    cex6.alternate.map AltFiber.tfid = some cex6.ftype.fid ∧
    cex6.alternate.bind AltFiber.props = some cex6.props ∧
    shouldUpdate cex6.props cex6.props = false ∧
    (captureComp cex6).1 = true := by
  decide

/-- C6 amended: for every memoized component fiber whose type equals its
previous version's type, whose previous version has props, and whose
effective change-detection function (the custom shouldUpdate comparator
if one is installed, otherwise the default shallow comparison) reports no
prop change, capture never invokes the render function and marks the
fiber memo; and the commit traversal skips any memo-flagged node
entirely, so its subtree contributes no actions to the commit. -/
theorem C6_memo_skip (f : CompFiber) (alt : AltFiber) (ap : Props)
    (h1 : f.ftype.memo = true) (h2 : f.alternate = some alt)
    (h3 : alt.tfid = f.ftype.fid) (h4 : alt.props = some ap)
    (h5 : (f.ftype.scu.getD shouldUpdate) f.props ap = false) :
    (captureComp f).1 = false ∧ (captureComp f).2.memo = true ∧
    (∀ (pre post : List CTree) (t : CTree), t.memo = true →
      commitList (pre ++ t :: post) = commitList pre ++ commitList post) := by
  have hm : isMemo f = true := by
    simp [isMemo, h2, h1, h3, h4, h5]
  exact ⟨by simp [captureComp, hm], by simp [captureComp, hm],
    fun pre post t ht => commitList_skip t ht pre post⟩

/-- Memoized component fiber with the default comparator and unchanged
props, for the C6 witness. -/
def w6 : CompFiber := ⟨⟨2, true, none⟩, [("x", 1)], some ⟨2, some [("x", 1)]⟩, false⟩

/-- A memo-flagged commit node for the C6 witness. -/
def w6t : CTree := CTree.mk 9 true true []

/-- Witness for the amended C6 at the concrete fiber w6. -/
theorem C6_witness :
    (captureComp w6).1 = false ∧ (captureComp w6).2.memo = true ∧
    commitList [w6t] = [] := by
  have h := C6_memo_skip w6 ⟨2, some [("x", 1)]⟩ [("x", 1)] rfl rfl rfl rfl (by decide)
  refine ⟨h.1, h.2.1, ?_⟩
  simpa [commitList] using h.2.2 [] [] w6t rfl

/-- The middle-resolution loop only ever appends to its action and
removal accumulators: running it on (acts, removed) equals running it on
empty accumulators and prefixing the initial contents. -/
theorem midPhase_acc (bCh : List Fiber) (aT bT : Nat) (aMap bMap : List (String × Nat)) :
    ∀ (fuel : Nat) (a : List (Option Fiber)) (aH bH : Nat) (acts : List Action)
      (removed : List Fiber),
      midPhase bCh aT bT aMap bMap fuel a aH bH acts removed =
        (acts ++ (midPhase bCh aT bT aMap bMap fuel a aH bH [] []).1,
         removed ++ (midPhase bCh aT bT aMap bMap fuel a aH bH [] []).2) := by
  intro fuel
  induction fuel with
  | zero => intro a aH bH acts removed; simp [midPhase]
  | succ fuel ih =>
    intro a aH bH acts removed
    by_cases hg : (aH < aT || bH < bT) = true
    · rcases hget : a[aH]? with _ | (_ | aElm)
      · by_cases h2 : bT ≤ bH
        · simp only [midPhase, if_pos hg, hget, if_pos h2]
          simp
        · by_cases h3 : aT ≤ aH
          · simp only [midPhase, if_pos hg, hget, if_neg h2, if_pos h3, List.nil_append]
            rw [ih a aH (bH+1) (acts ++ [Action.mk Op.INSERT (some (bCh.getD bH dfib)) none]) removed,
              ih a aH (bH+1) [Action.mk Op.INSERT (some (bCh.getD bH dfib)) none] []]
            simp [List.append_assoc]
          · simp only [midPhase, if_pos hg, hget, if_neg h2, if_neg h3]
            simp
      · simp only [midPhase, if_pos hg, hget]
        exact ih a (aH+1) bH acts removed
      · by_cases h2 : bT ≤ bH
        · simp only [midPhase, if_pos hg, hget, if_pos h2, List.nil_append]
          rw [ih a (aH+1) bH acts (removed ++ [aElm]), ih a (aH+1) bH [] [aElm]]
          simp [List.append_assoc]
        · by_cases h3 : aT ≤ aH
          · simp only [midPhase, if_pos hg, hget, if_neg h2, if_pos h3, List.nil_append]
            rw [ih a aH (bH+1) (acts ++ [Action.mk Op.INSERT (some (bCh.getD bH dfib)) (some aElm)]) removed,
              ih a aH (bH+1) [Action.mk Op.INSERT (some (bCh.getD bH dfib)) (some aElm)] []]
            simp [List.append_assoc]
          · by_cases hs : same aElm (bCh.getD bH dfib) = true
            · simp only [midPhase, if_pos hg, hget, if_neg h2, if_neg h3, if_pos hs,
                List.nil_append]
              rw [ih a (aH+1) (bH+1) (acts ++ [updAct]) removed,
                ih a (aH+1) (bH+1) [updAct] []]
              simp [List.append_assoc]
            · rcases hfb : bMap.lookup (keyStr aElm.key) with _ | fb
              · simp only [midPhase, if_pos hg, hget, if_neg h2, if_neg h3, if_neg hs,
                  hfb, List.nil_append]
                rw [ih a (aH+1) bH acts (removed ++ [aElm]), ih a (aH+1) bH [] [aElm]]
                simp [List.append_assoc]
              · rcases hfa : aMap.lookup (keyStr (bCh.getD bH dfib).key) with _ | fa
                · simp only [midPhase, if_pos hg, hget, if_neg h2, if_neg h3, if_neg hs,
                    hfb, hfa, List.nil_append]
                  rw [ih a aH (bH+1)
                      (acts ++ [Action.mk Op.INSERT (some (bCh.getD bH dfib)) (some aElm)]) removed,
                    ih a aH (bH+1) [Action.mk Op.INSERT (some (bCh.getD bH dfib)) (some aElm)] []]
                  simp [List.append_assoc]
                · simp only [midPhase, if_pos hg, hget, if_neg h2, if_neg h3, if_neg hs,
                    hfb, hfa, List.nil_append]
                  rw [ih (a.set fa none) aH (bH+1)
                      (acts ++ [Action.mk Op.MOVE (a.getD fa none) (some aElm)]) removed,
                    ih (a.set fa none) aH (bH+1) [Action.mk Op.MOVE (a.getD fa none) (some aElm)] []]
                  simp [List.append_assoc]
    · simp only [midPhase, if_neg hg]
      simp

/-- C3: the action list diff returns is the head-match-phase actions,
then the middle-resolution actions, then the tail-match-phase actions in
reversed order (the tail actions were buffered tail-to-head in temp). -/
theorem C3_phase_concatenation (aCh bCh : List Fiber) :
    (diff aCh bCh).actions =
      (headOut aCh bCh).2.2 ++ (midOut aCh bCh).1 ++ (tailOut aCh bCh).2.2.reverse := by
  have h := midPhase_acc bCh (tailOut aCh bCh).1 (tailOut aCh bCh).2.1
    (aMapOut aCh bCh) (bMapOut aCh bCh) (aCh.length + bCh.length + 1)
    (aCh.map some) (headOut aCh bCh).1 (headOut aCh bCh).2.1
    (headOut aCh bCh).2.2 []
  simp only [diff, midOut]
  rw [h]

/-- A successful association-list lookup produced one of the stored
entries (JavaScript object lookup after possible overwrites). -/
theorem lookup_mem {v : Nat} : ∀ (l : List (String × Nat)) (k : String),
    List.lookup k l = some v → (k, v) ∈ l := by
  intro l
  induction l with
  | nil => intro k h; simp [List.lookup] at h
  | cons p t ih =>
    obtain ⟨k1, v1⟩ := p
    intro k h
    rw [List.lookup] at h
    cases he : (k == k1) with
    | true =>
      rw [he] at h
      simp only [Option.some.injEq] at h
      have hk : k = k1 := by simpa using he
      subst hk
      subst h
      exact List.mem_cons_self _ _
    | false =>
      rw [he] at h
      exact List.mem_cons_of_mem _ (ih k h)

/-- Folding the key-indexing step only adds entries whose slot holds a
truthy key. -/
theorem buildMap_fold (ch : List Fiber) :
    ∀ (l : List Nat) (init : List (String × Nat)) (s : String) (i : Nat),
      (s, i) ∈ l.foldl
        (fun m j =>
          if truthyKey (ch.getD j dfib).key then (keyStr (ch.getD j dfib).key, j) :: m
          else m) init →
      (s, i) ∈ init ∨ truthyKey (ch.getD i dfib).key = true := by
  intro l
  induction l with
  | nil => intro init s i h; exact Or.inl h
  | cons j t ih =>
    intro init s i h
    rw [List.foldl_cons] at h
    rcases ih _ s i h with hin | ht
    · by_cases hj : truthyKey (ch.getD j dfib).key = true
      · rw [if_pos hj] at hin
        rcases List.mem_cons.mp hin with heq | hin2
        · obtain ⟨hs, hi⟩ := Prod.mk.injEq .. ▸ heq
          subst hi
          exact Or.inr hj
        · exact Or.inl hin2
      · rw [if_neg hj] at hin
        exact Or.inl hin
    · exact Or.inr ht

/-- C9 part one: a node of the indexed middle range whose key is falsy is
omitted from the key-to-position map — every map entry points at a
position holding a truthy key. -/
theorem buildMap_mem (ch : List Fiber) (lo hi : Nat) (s : String) (i : Nat)
    (h : (s, i) ∈ buildMap ch lo hi) : truthyKey (ch.getD i dfib).key = true := by
  rw [buildMap] at h
  rcases buildMap_fold ch _ [] s i h with h0 | ht
  · simp at h0
  · exact ht

/-- Every action buffered by the tail-match phase is an UPDATE. -/
theorem tailPhase_upd (aCh bCh : List Fiber) :
    ∀ (aT bT : Nat) (temp : List Action),
      (∀ x ∈ temp, x = updAct) →
      ∀ x ∈ (tailPhase aCh bCh aT bT temp).2.2, x = updAct
  | aT+1, bT+1, temp, hyp => by
    by_cases hs : same (aCh.getD aT dfib) (bCh.getD bT dfib) = true
    · simp only [tailPhase, if_pos hs]
      apply tailPhase_upd aCh bCh aT bT (temp ++ [updAct])
      intro x hx
      rcases List.mem_append.mp hx with h1 | h2
      · exact hyp x h1
      · simpa using h2
    · simp only [tailPhase, if_neg hs]
      exact hyp
  | 0, bT, temp, hyp => by
    simp only [tailPhase]
    exact hyp
  | aT+1, 0, temp, hyp => by
    simp only [tailPhase]
    exact hyp

/-- Every action appended by the head-match phase is an UPDATE. -/
theorem headPhase_upd (aCh bCh : List Fiber) (aT bT : Nat) :
    ∀ (fuel aH bH : Nat) (acts : List Action),
      (∀ x ∈ acts, x = updAct) →
      ∀ x ∈ (headPhase aCh bCh aT bT fuel aH bH acts).2.2, x = updAct := by
  intro fuel
  induction fuel with
  | zero =>
    intro aH bH acts hyp
    simp only [headPhase]
    exact hyp
  | succ fuel ih =>
    intro aH bH acts hyp
    by_cases hg : (aH < aT && bH < bT) = true
    · by_cases hs : same (aCh.getD aH dfib) (bCh.getD bH dfib) = true
      · simp only [headPhase, if_pos hg, if_pos hs]
        apply ih
        intro x hx
        rcases List.mem_append.mp hx with h1 | h2
        · exact hyp x h1
        · simpa using h2
      · simp only [headPhase, if_pos hg, if_neg hs]
        exact hyp
    · simp only [headPhase, if_neg hg]
      exact hyp

/-- C9 part two, loop invariant: if every old-side map entry points at a
slot that is nulled or holds a truthy-key fiber, and every MOVE already
accumulated carries a truthy-key cur, then every MOVE the
middle-resolution loop emits carries a truthy-key cur. -/
theorem midPhase_move (bCh : List Fiber) (aT bT : Nat) (aMap bMap : List (String × Nat)) :
    ∀ (fuel : Nat) (a : List (Option Fiber)) (aH bH : Nat) (acts : List Action)
      (removed : List Fiber),
      (∀ s i, (s, i) ∈ aMap → ∀ f, a.getD i none = some f → truthyKey f.key = true) →
      (∀ act ∈ acts, act.op = Op.MOVE → ∀ f, act.cur = some f → truthyKey f.key = true) →
      ∀ act ∈ (midPhase bCh aT bT aMap bMap fuel a aH bH acts removed).1,
        act.op = Op.MOVE → ∀ f, act.cur = some f → truthyKey f.key = true := by
  intro fuel
  induction fuel with
  | zero =>
    intro a aH bH acts removed _ hyp
    simp only [midPhase]
    exact hyp
  | succ fuel ih =>
    intro a aH bH acts removed hinv hyp
    by_cases hg : (aH < aT || bH < bT) = true
    · rcases hget : a[aH]? with _ | (_ | aElm)
      · by_cases h2 : bT ≤ bH
        · simp only [midPhase, if_pos hg, hget, if_pos h2]
          exact hyp
        · by_cases h3 : aT ≤ aH
          · simp only [midPhase, if_pos hg, hget, if_neg h2, if_pos h3]
            apply ih a aH (bH+1) _ removed hinv
            intro act hact
            rcases List.mem_append.mp hact with h1 | h1
            · exact hyp act h1
            · intro hop
              simp at h1
              subst h1
              simp at hop
          · simp only [midPhase, if_pos hg, hget, if_neg h2, if_neg h3]
            exact hyp
      · simp only [midPhase, if_pos hg, hget]
        exact ih a (aH+1) bH acts removed hinv hyp
      · by_cases h2 : bT ≤ bH
        · simp only [midPhase, if_pos hg, hget, if_pos h2]
          exact ih a (aH+1) bH acts (removed ++ [aElm]) hinv hyp
        · by_cases h3 : aT ≤ aH
          · simp only [midPhase, if_pos hg, hget, if_neg h2, if_pos h3]
            apply ih a aH (bH+1) _ removed hinv
            intro act hact
            rcases List.mem_append.mp hact with h1 | h1
            · exact hyp act h1
            · intro hop
              simp at h1
              subst h1
              simp at hop
          · by_cases hs : same aElm (bCh.getD bH dfib) = true
            · simp only [midPhase, if_pos hg, hget, if_neg h2, if_neg h3, if_pos hs]
              apply ih a (aH+1) (bH+1) _ removed hinv
              intro act hact
              rcases List.mem_append.mp hact with h1 | h1
              · exact hyp act h1
              · intro hop
                simp at h1
                subst h1
                simp [updAct] at hop
            · rcases hfb : bMap.lookup (keyStr aElm.key) with _ | fb
              · simp only [midPhase, if_pos hg, hget, if_neg h2, if_neg h3, if_neg hs, hfb]
                exact ih a (aH+1) bH acts (removed ++ [aElm]) hinv hyp
              · rcases hfa : aMap.lookup (keyStr (bCh.getD bH dfib).key) with _ | fa
                · simp only [midPhase, if_pos hg, hget, if_neg h2, if_neg h3, if_neg hs,
                    hfb, hfa]
                  apply ih a aH (bH+1) _ removed hinv
                  intro act hact
                  rcases List.mem_append.mp hact with h1 | h1
                  · exact hyp act h1
                  · intro hop
                    simp at h1
                    subst h1
                    simp at hop
                · simp only [midPhase, if_pos hg, hget, if_neg h2, if_neg h3, if_neg hs,
                    hfb, hfa]
                  apply ih (a.set fa none) aH (bH+1) _ removed
                  · intro s i hmem f hslot
                    rcases eq_or_ne i fa with hif | hif
                    · subst hif
                      rw [List.getD_eq_getElem?_getD, List.getElem?_set] at hslot
                      by_cases hlen : i < a.length
                      · simp [hlen] at hslot
                      · simp [hlen] at hslot
                    · rw [List.getD_eq_getElem?_getD,
                        List.getElem?_set_ne (Ne.symm hif),
                        ← List.getD_eq_getElem?_getD] at hslot
                      exact hinv s i hmem f hslot
                  · intro act hact
                    rcases List.mem_append.mp hact with h1 | h1
                    · exact hyp act h1
                    · intro hop f hcur
                      simp at h1
                      subst h1
                      simp only [] at hcur
                      rw [← List.getD_eq_getElem?_getD] at hcur
                      have hmem2 := lookup_mem aMap (keyStr (bCh.getD bH dfib).key) hfa
                      exact hinv _ fa hmem2 f hcur
    · simp only [midPhase, if_neg hg]
      exact hyp

/-- C9 amended: in diff's key-indexing step a middle-range node whose key
is falsy (absent, null, undefined, 0 or the empty string) is omitted from
both key-to-position maps (buildMap only records truthy keys), and
consequently such a node is never the cur of a MOVE action: every MOVE
diff emits carries a cur with a truthy key.  Such a node can still be
matched by the head-to-head same comparison of the middle pass and
receive an UPDATE there (see C9_counterexample), so insert and remove are
not the only outcomes for it. -/
theorem C9_falsy_key_nodes :
    (∀ (ch : List Fiber) (lo hi : Nat) (s : String) (i : Nat),
      (s, i) ∈ buildMap ch lo hi → truthyKey (ch.getD i dfib).key = true) ∧
    (∀ (aCh bCh : List Fiber) (act : Action), act ∈ (diff aCh bCh).actions →
      act.op = Op.MOVE → ∀ f, act.cur = some f → truthyKey f.key = true) := by
  constructor
  · exact fun ch lo hi s i h => buildMap_mem ch lo hi s i h
  · intro aCh bCh act hmem hop f hcur
    have hacts : (diff aCh bCh).actions =
        (midPhase bCh (tailOut aCh bCh).1 (tailOut aCh bCh).2.1
          (aMapOut aCh bCh) (bMapOut aCh bCh) (aCh.length + bCh.length + 1)
          (aCh.map some) (headOut aCh bCh).1 (headOut aCh bCh).2.1
          (headOut aCh bCh).2.2 []).1 ++ (tailOut aCh bCh).2.2.reverse := rfl
    rw [hacts] at hmem
    rcases List.mem_append.mp hmem with hmid | htail
    · have hinv : ∀ s i, (s, i) ∈ aMapOut aCh bCh →
          ∀ g, (aCh.map some).getD i none = some g → truthyKey g.key = true := by
        intro s i hm g hslot
        have ht := buildMap_mem aCh (headOut aCh bCh).1 (tailOut aCh bCh).1 s i hm
        rw [List.getD_eq_getElem?_getD, List.getElem?_map] at hslot
        cases hsi : aCh[i]? with
        | none => rw [hsi] at hslot; simp at hslot
        | some g2 =>
          rw [hsi] at hslot
          simp at hslot
          subst hslot
          rw [List.getD_eq_getElem?_getD, hsi] at ht
          simpa using ht
      have hhead : ∀ x ∈ (headOut aCh bCh).2.2, x = updAct := by
        apply headPhase_upd
        intro x hx
        simp at hx
      have hP := midPhase_move bCh (tailOut aCh bCh).1 (tailOut aCh bCh).2.1
        (aMapOut aCh bCh) (bMapOut aCh bCh) (aCh.length + bCh.length + 1)
        (aCh.map some) (headOut aCh bCh).1 (headOut aCh bCh).2.1
        (headOut aCh bCh).2.2 [] hinv
        (fun x hx hop2 => by rw [hhead x hx] at hop2; simp [updAct] at hop2)
      exact hP act hmid hop f hcur
    · have := tailPhase_upd aCh bCh aCh.length bCh.length []
        (by intro x hx; simp at hx) act (List.mem_reverse.mp htail)
      rw [this] at hop
      simp [updAct] at hop

/-- Fibers for the C9 counterexample: a keyed node A, an unkeyed node X
and a keyed node B. -/
def c9A : Fiber := ⟨"a", JKey.kstr "k1"⟩

/-- The unkeyed (falsy-key) middle node of the C9 counterexample. -/
def c9X : Fiber := ⟨"x", JKey.knull⟩

/-- The keyed node B of the C9 counterexample. -/
def c9B : Fiber := ⟨"b", JKey.kstr "k2"⟩

/-- C9 counterexample: for old [A(k1), X] and new [X, B(k2)] with X
unkeyed, the whole new list is the unmatched middle range, yet X is
neither inserted nor removed by the middle pass: A is removed, X receives
the UPDATE at new position 0 (it is matched against the old list's
position 1 by the same comparison), and only B is inserted.  So a
falsy-key middle node is not restricted to insert or remove. -/
theorem C9_counterexample :
    truthyKey c9X.key = false ∧
    diff [c9A, c9X] [c9X, c9B] =
      ⟨[updAct, ⟨Op.INSERT, some c9B, none⟩], [c9A]⟩ := by
  decide

/-- Fibers for the C9 witness (a scenario that emits a MOVE). -/
def w9A : Fiber := ⟨"t", JKey.kstr "m1"⟩

/-- Second fiber of the C9 witness. -/
def w9B : Fiber := ⟨"t", JKey.kstr "m2"⟩

/-- Third fiber of the C9 witness; it is moved to the front. -/
def w9C : Fiber := ⟨"t", JKey.kstr "m3"⟩

/-- Witness for the amended C9: the MOVE emitted when diffing
[A, B, C] against [C, A, B] carries a truthy-key cur, as the theorem
requires. -/
theorem C9_witness : truthyKey w9C.key = true :=
  C9_falsy_key_nodes.2 [w9A, w9B, w9C] [w9C, w9A, w9B]
    ⟨Op.MOVE, some w9C, some w9A⟩ (by decide) rfl w9C rfl

end Fre
